import Mathlib

/-!
Verification of the ggLang runtime garbage collector (src/runtime/gg_runtime.c,
src/runtime/gg_runtime.h): a conservative mark-and-sweep collector over an
intrusive singly linked list of heap object headers.

Shallow embedding conventions:
* Machine addresses are `Nat`; a header is identified by its address.
* The intrusive heap list (`gg_gc.heap`, following `next` links) is a Lean
  `List gg_gc_header`, head first.
* A payload is the list of pointer-sized words stored in the object body;
  the conservative scanner reads `size / sizeof(void*)` words of it.
* Mutator memory outside the heap is an oracle `deref : Nat → Nat` giving the
  word stored at a root slot address (the C code reads `*(void**)root_ptr`).
* The host allocator (`calloc`) is an oracle `Option Nat`: `none` models a
  failed allocation, `some a` a fresh block at header address `a`.
* `exit(code)` plus the `fprintf(stderr, ...)` lines before it are modelled by
  the `fatal` constructor carrying the exit code and the message lines.
-/

/-- `sizeof(void*)` on the assumed 64-bit platform. -/
def ptrSize : Nat := 8

/-- `sizeof(gg_gc_header)`: next pointer + size + mark bit, padded. -/
def headerSize : Nat := 24

/-- `GG_GC_INITIAL_THRESHOLD` from gg_runtime.h. -/
def GG_GC_INITIAL_THRESHOLD : Nat := 1024

/-- `GG_GC_MAX_ROOTS` from gg_runtime.h. -/
def GG_GC_MAX_ROOTS : Nat := 4096

/-- A heap object header (`struct gg_gc_header`) together with the payload
it prefixes.  `addr` is the header's machine address (its identity); `size`
is the payload byte count; `marked` the mark bit; `body` the payload,
as pointer-sized words. -/
structure gg_gc_header where
  addr : Nat
  size : Nat
  marked : Bool
  body : List Nat
deriving DecidableEq, Repr

/-- The global GC state (`gg_gc_state` in gg_runtime.h).  `roots` is the
root vector (`roots[0..root_count)`), each entry the address of a mutator
slot; `root_count` is its length. -/
structure gg_gc_state where
  heap : List gg_gc_header
  roots : List Nat
  alloc_count : Nat
  threshold : Nat
  total_allocated : Nat
  total_collected : Nat
  collections : Nat
  memory_limit : Nat
deriving DecidableEq, Repr

/-- `gg_gc_init()`: the state it establishes. -/
def gg_gc_init : gg_gc_state :=
  { heap := []
    roots := []
    alloc_count := 0
    threshold := GG_GC_INITIAL_THRESHOLD
    total_allocated := 0
    total_collected := 0
    collections := 0
    memory_limit := 0 }

/-- Sum of `size` over a heap list. -/
def heapBytes (heap : List gg_gc_header) : Nat :=
  (heap.map (fun o => o.size)).sum

/-- `gg_gc_shutdown()`: free every object on the list (adding each `size` to
`total_collected`), then clear `heap`, `root_count`, `alloc_count`,
`total_allocated`.  The other fields are not touched by the C code. -/
def gg_gc_shutdown (s : gg_gc_state) : gg_gc_state :=
  { s with
    heap := []
    roots := []
    alloc_count := 0
    total_allocated := 0
    total_collected := s.total_collected + heapBytes s.heap }

/-- `gg_gc_find_header(ptr)`: `NULL` yields `NULL`; otherwise subtract one
header from the candidate payload pointer and walk the heap list for an
exact header-address match (first match, as the C walk returns on it). -/
def gg_gc_find_header (heap : List gg_gc_header) (p : Nat) : Option gg_gc_header :=
  if p = 0 then none
  else heap.find? (fun o => o.addr + headerSize == p)

/-- The words the conservative scanner reads from an object:
`size / sizeof(void*)` pointer-sized words of the payload. -/
def scanWords (o : gg_gc_header) : List Nat :=
  o.body.take (o.size / ptrSize)

/-- `header->marked = 1` on the header at address `a` (a header's address is
its identity, so this marks the list member carrying `a`). -/
def setMark (heap : List gg_gc_header) (a : Nat) : List gg_gc_header :=
  heap.map (fun o => if o.addr = a then { o with marked := true } else o)

/-- Number of unmarked objects on the heap list; the measure that bounds the
depth of the recursive mark phase. -/
def unmarkedCount (heap : List gg_gc_header) : Nat :=
  (heap.filter (fun o => !o.marked)).length

/-- The loop body of `gg_gc_mark_object`'s conservative scan, abstracted over
the recursive call `f`: for each candidate word, skip `NULL`, resolve via
`gg_gc_find_header`, and recurse into unmarked targets. -/
def markWordsWith (f : List gg_gc_header → Nat → List gg_gc_header) :
    List gg_gc_header → List Nat → List gg_gc_header
  | heap, [] => heap
  | heap, w :: ws =>
    markWordsWith f
      (if w = 0 then heap
       else
         match gg_gc_find_header heap w with
         | none => heap
         | some t => if t.marked then heap else f heap t.addr) ws

/-- `gg_gc_mark_object(header)`: return if the header is absent or already
marked, else set the mark bit and scan the payload body, recursing into
each resolvable unmarked target.  The C recursion is general; `fuel` is the
recursion budget, and any budget at least `unmarkedCount heap` computes the
same result (each recursive call first marks a previously unmarked
object). -/
def gg_gc_mark_object : Nat → List gg_gc_header → Nat → List gg_gc_header
  | 0, heap, _ => heap
  | Nat.succ fuel, heap, a =>
    match heap.find? (fun o => o.addr == a) with
    | none => heap
    | some h =>
      if h.marked then heap
      else markWordsWith (fun hp b => gg_gc_mark_object fuel hp b) (setMark heap a) (scanWords h)

/-- `gg_gc_mark()`: for each root slot, skip `NULL` slots, dereference the
slot through `deref`, resolve the stored word, and mark from the resolved
header.  The fuel `hp.length` dominates `unmarkedCount hp`, so it is always
a sufficient recursion budget. -/
def gg_gc_mark (deref : Nat → Nat) (roots : List Nat) (heap : List gg_gc_header) :
    List gg_gc_header :=
  roots.foldl
    (fun hp r =>
      if r = 0 then hp
      else
        let v := deref r
        if v = 0 then hp
        else
          match gg_gc_find_header hp v with
          | none => hp
          | some h => gg_gc_mark_object hp.length hp h.addr)
    heap

/-- `gg_gc_sweep()`: walk the list; unlink and `free` every unmarked object,
clear the mark bit on survivors.  Returns (survivors, freed objects). -/
def gg_gc_sweep : List gg_gc_header → List gg_gc_header × List gg_gc_header
  | [] => ([], [])
  | o :: rest =>
    let r := gg_gc_sweep rest
    if o.marked then ({ o with marked := false } :: r.1, r.2)
    else (r.1, o :: r.2)

/-- Header addresses `free`d (released to the host allocator) by the sweep of
one `gg_gc_collect(deref)` cycle started in state `s`. -/
def gg_gc_collectFreed (deref : Nat → Nat) (s : gg_gc_state) : List Nat :=
  ((gg_gc_sweep (gg_gc_mark deref s.roots s.heap)).2).map (fun o => o.addr)

/-- `gg_gc_collect()`: mark, sweep (subtracting freed bytes from
`total_allocated` and adding them to `total_collected`), reset `alloc_count`,
bump `collections`, and double `threshold` when more than `threshold / 2`
objects survive. -/
def gg_gc_collect (deref : Nat → Nat) (s : gg_gc_state) : gg_gc_state :=
  let heapM := gg_gc_mark deref s.roots s.heap
  let swept := gg_gc_sweep heapM
  let freed := heapBytes swept.2
  { s with
    heap := swept.1
    total_allocated := s.total_allocated - freed
    total_collected := s.total_collected + freed
    alloc_count := 0
    collections := s.collections + 1
    threshold :=
      if swept.1.length > s.threshold / 2 then s.threshold * 2 else s.threshold }

/-- Result of `gg_gc_alloc`: either a normal return of the new state and the
payload pointer, or `exit(code)` after printing `msgs` to stderr. -/
inductive gg_alloc_result where
  | ok (s : gg_gc_state) (payload : Nat)
  | fatal (code : Nat) (msgs : List String)
deriving DecidableEq, Repr

/-- First stderr line of the memory-limit fatal error. -/
def ggLimitMsg (t l n : Nat) : String :=
  s!"[ggLang GC] Fatal error: memory limit exceeded ({t} bytes allocated, limit is {l} bytes, requested {n} bytes)"

/-- Second stderr line of the memory-limit fatal error. -/
def ggLimitMsg2 : String :=
  "[ggLang GC] The application has been terminated due to memory constraints."

/-- Third stderr line of the memory-limit fatal error. -/
def ggLimitMsg3 : String :=
  "[ggLang GC] Increase the memory limit with \x27gg init --mem <size>\x27 or optimize memory usage."

/-- Stderr line of the out-of-memory fatal error. -/
def ggOomMsg (n : Nat) : String :=
  s!"[ggLang GC] Fatal error: out of memory ({n} bytes)"

/-- The step of `gg_gc_alloc` that prepends the freshly calloc-ed, zeroed
header at address `a`: fill `size`, `mark = 0`, link as new head, bump
`alloc_count` and `total_allocated`, return the payload pointer. -/
def gg_gc_allocFinish (a : Nat) (s : gg_gc_state) (size : Nat) : gg_alloc_result :=
  .ok
    { s with
      heap :=
        { addr := a
          size := size
          marked := false
          body := List.replicate (size / ptrSize) 0 } :: s.heap
      alloc_count := s.alloc_count + 1
      total_allocated := s.total_allocated + size }
    (a + headerSize)

/-- The calloc/retry tail of `gg_gc_alloc`: try the host allocator
(`calloc1`); on failure collect once and retry (`calloc2`); on second
failure exit 1. -/
def gg_gc_allocCore (deref : Nat → Nat) (calloc1 calloc2 : Option Nat)
    (s : gg_gc_state) (size : Nat) : gg_alloc_result :=
  match calloc1 with
  | some a => gg_gc_allocFinish a s size
  | none =>
    let s2 := gg_gc_collect deref s
    match calloc2 with
    | some a => gg_gc_allocFinish a s2 size
    | none => .fatal 1 [ggOomMsg size]

/-- The threshold check at the top of `gg_gc_alloc`: collect when
`alloc_count >= threshold`. -/
def gg_gc_allocPre (deref : Nat → Nat) (s : gg_gc_state) : gg_gc_state :=
  if s.alloc_count ≥ s.threshold then gg_gc_collect deref s else s

/-- `gg_gc_alloc(size)`: threshold check, then the memory-limit check (one
forced collection, then exit 137 with the three-line message if still over
the limit), then calloc with one collect-and-retry. -/
def gg_gc_alloc (deref : Nat → Nat) (calloc1 calloc2 : Option Nat)
    (s : gg_gc_state) (size : Nat) : gg_alloc_result :=
  if (gg_gc_allocPre deref s).memory_limit > 0 ∧
      (gg_gc_allocPre deref s).total_allocated + size >
        (gg_gc_allocPre deref s).memory_limit then
    if (gg_gc_collect deref (gg_gc_allocPre deref s)).total_allocated + size >
        (gg_gc_collect deref (gg_gc_allocPre deref s)).memory_limit then
      .fatal 137
        [ggLimitMsg (gg_gc_collect deref (gg_gc_allocPre deref s)).total_allocated
           (gg_gc_collect deref (gg_gc_allocPre deref s)).memory_limit size,
         ggLimitMsg2, ggLimitMsg3]
    else gg_gc_allocCore deref calloc1 calloc2 (gg_gc_collect deref (gg_gc_allocPre deref s)) size
  else gg_gc_allocCore deref calloc1 calloc2 (gg_gc_allocPre deref s) size

/-- `gg_gc_add_root(root_ptr)`: on overflow emit the warning and drop the
root; otherwise append.  Second component: the stderr lines emitted. -/
def gg_gc_add_root (s : gg_gc_state) (root_ptr : Nat) : gg_gc_state × List String :=
  if s.roots.length ≥ GG_GC_MAX_ROOTS then
    (s, ["[ggLang GC] Warning: root set overflow, ignoring root"])
  else ({ s with roots := s.roots ++ [root_ptr] }, [])

/-- Modelled from the spec: `gg_gc_push_root_frame` is declared in
gg_runtime.h but has no definition under src/; per spec section 4.3 it
captures the current root count and returns it as the frame token. -/
def gg_gc_push_root_frame (s : gg_gc_state) : gg_gc_state × Nat :=
  (s, s.roots.length)

/-- Modelled from the spec: `gg_gc_pop_root_frame` is declared in
gg_runtime.h but has no definition under src/; per spec section 4.3 it
truncates the root vector back to the captured count. -/
def gg_gc_pop_root_frame (s : gg_gc_state) (frame : Nat) : gg_gc_state :=
  { s with roots := s.roots.take frame }

/-- The unlink walk of `gg_free`: find the list member whose header address
is `p` minus one header (`target = (gg_gc_header*)ptr - 1`), remove it.
Returns the shortened list and the removed header; `none` when absent. -/
def gg_free_unlink (p : Nat) :
    List gg_gc_header → Option (List gg_gc_header × gg_gc_header)
  | [] => none
  | o :: rest =>
    if o.addr + headerSize = p then some (rest, o)
    else
      match gg_free_unlink p rest with
      | some r => some (o :: r.1, r.2)
      | none => none

/-- `gg_free(ptr)`: `NULL` is a no-op; otherwise unlink the header from the
registry, subtract its `size` from `total_allocated`, and `free` it; if the
payload is not on the registry, fall through to the host `free(ptr)`.
Second component: the addresses passed to the host allocator's `free`. -/
def gg_free (s : gg_gc_state) (p : Nat) : gg_gc_state × List Nat :=
  if p = 0 then (s, [])
  else
    match gg_free_unlink p s.heap with
    | some r =>
      ({ s with
         heap := r.1
         total_allocated := s.total_allocated - r.2.size }, [r.2.addr])
    | none => (s, [p])

/-- `Memory_free(ptr)`: delegates to `gg_free`. -/
def Memory_free (s : gg_gc_state) (p : Nat) : gg_gc_state × List Nat :=
  gg_free s p

/-- Invariant R1/P1: the sum of `size` over the intrusive list equals
`total_allocated`. -/
def SizeInv (s : gg_gc_state) : Prop :=
  heapBytes s.heap = s.total_allocated

/-- The conservative reachability relation of spec section 4.4 over a fixed
heap snapshot: an address is reachable when some registered non-null root
slot's content resolves to its header (`gg_gc_find_header`, i.e. the word
minus one header size is the address of a header on the list), or when a
scanned payload word of a reachable object resolves to it. -/
inductive ggReachable (deref : Nat → Nat) (roots : List Nat)
    (heap : List gg_gc_header) : Nat → Prop where
  | root (r : Nat) (o : gg_gc_header) (hr : r ∈ roots) (hr0 : r ≠ 0)
      (hf : gg_gc_find_header heap (deref r) = some o) :
      ggReachable deref roots heap o.addr
  | step (a w : Nat) (o t : gg_gc_header) (ha : ggReachable deref roots heap a)
      (ho : o ∈ heap) (hoa : o.addr = a) (hw : w ∈ scanWords o)
      (hf : gg_gc_find_header heap w = some t) :
      ggReachable deref roots heap t.addr

/-- Whether the list member at address `a` is marked. -/
def ggMarkedAt (heap : List gg_gc_header) (a : Nat) : Prop :=
  ∃ o, o ∈ heap ∧ o.addr = a ∧ o.marked = true

/-- Reachability (ignoring mark bits) from the object at address `a` through
scanned payload words, used to relate the mark recursion to `ggReachable`. -/
inductive ggReaches (heap : List gg_gc_header) (a : Nat) : Nat → Prop where
  | refl : ggReaches heap a a
  | step (b w : Nat) (o t : gg_gc_header) (hb : ggReaches heap a b)
      (ho : o ∈ heap) (hoa : o.addr = b) (hw : w ∈ scanWords o)
      (hf : gg_gc_find_header heap w = some t) :
      ggReaches heap a t.addr

/-- Heap with the mark bit set on every object whose address lies in `S`. -/
def markBy (S : List Nat) (heap : List gg_gc_header) : List gg_gc_header :=
  heap.map (fun o => if o.addr ∈ S then { o with marked := true } else o)

/-- Closure of a heap's marking up to a pending word list `P`: every scanned
word of every marked object either resolves to a marked target or is still
pending. -/
def ggClosedBut (heap : List gg_gc_header) (P : List Nat) : Prop :=
  ∀ o ∈ heap, o.marked = true → ∀ w ∈ scanWords o, ∀ t,
    gg_gc_find_header heap w = some t → t.marked = true ∨ w ∈ P

/-- Concrete state with a full root vector, used to exercise the overflow
branch of `gg_gc_add_root`. -/
def ggFullRootState : gg_gc_state :=
  { gg_gc_init with roots := List.replicate GG_GC_MAX_ROOTS 0 }

/-- Concrete state with a memory ceiling set, distinguishing `shutdown`
from `init`. -/
def ggLimitState : gg_gc_state :=
  { gg_gc_init with memory_limit := 5 }

/-- Concrete root-slot memory where every slot holds the null word. -/
def ggDeref0 : Nat → Nat := fun _ => 0

/-- The state produced by one 8-byte allocation at header address 64 from
the init state. -/
def ggAllocState : gg_gc_state :=
  { gg_gc_init with
    heap := [{ addr := 64, size := 8, marked := false, body := [0] }]
    alloc_count := 1
    total_allocated := 8 }

/-- A two-object heap whose payloads point at each other (payload of the
header at 100 is 124, of the header at 200 is 224): a reference cycle. -/
def ggCycleHeap : List gg_gc_header :=
  [{ addr := 100, size := 16, marked := false, body := [224, 0] },
   { addr := 200, size := 16, marked := false, body := [124, 0] }]

/-- A heap with one rooted object (header 100, its payload pointer 124 is
stored in the slot at 50) and one unreachable object (header 200). -/
def ggTwoHeap : List gg_gc_header :=
  [{ addr := 100, size := 8, marked := false, body := [0] },
   { addr := 200, size := 8, marked := false, body := [0] }]

/-- Registry state over `ggTwoHeap` with the single root slot 50. -/
def ggTwoState : gg_gc_state :=
  { gg_gc_init with heap := ggTwoHeap, roots := [50], total_allocated := 16 }

/-- Root-slot memory for `ggTwoState`: slot 50 holds the payload pointer 124
of the header at 100. -/
def ggTwoDeref : Nat → Nat := fun r => if r = 50 then 124 else 0

theorem heapBytes_cons (o : gg_gc_header) (rest : List gg_gc_header) :
    heapBytes (o :: rest) = o.size + heapBytes rest := by
  simp [heapBytes]

theorem sweep_cons (o : gg_gc_header) (rest : List gg_gc_header) :
    gg_gc_sweep (o :: rest) =
      (if o.marked then
        ({ o with marked := false } :: (gg_gc_sweep rest).1, (gg_gc_sweep rest).2)
       else ((gg_gc_sweep rest).1, o :: (gg_gc_sweep rest).2)) := rfl

theorem sweep_bytes (h : List gg_gc_header) :
    heapBytes (gg_gc_sweep h).1 + heapBytes (gg_gc_sweep h).2 = heapBytes h := by
  induction h with
  | nil => rfl
  | cons o rest ih =>
    rw [sweep_cons]
    by_cases hm : o.marked
    · rw [if_pos hm]
      simp only [heapBytes_cons]
      have hsz : ({ o with marked := false } : gg_gc_header).size = o.size := rfl
      rw [hsz]
      omega
    · rw [if_neg hm]
      simp only [heapBytes_cons]
      omega

theorem markBy_cons (S : List Nat) (o : gg_gc_header) (rest : List gg_gc_header) :
    markBy S (o :: rest) =
      (if o.addr ∈ S then { o with marked := true } else o) :: markBy S rest := rfl

theorem markBy_heapBytes (S : List Nat) (h : List gg_gc_header) :
    heapBytes (markBy S h) = heapBytes h := by
  induction h with
  | nil => rfl
  | cons o rest ih =>
    rw [markBy_cons, heapBytes_cons, heapBytes_cons, ih]
    by_cases hm : o.addr ∈ S
    · rw [if_pos hm]
    · rw [if_neg hm]

theorem markBy_nilset (h : List gg_gc_header) : markBy [] h = h := by
  induction h with
  | nil => rfl
  | cons o rest ih => rw [markBy_cons, ih]; simp

theorem markBy_markBy (S1 S2 : List Nat) (h : List gg_gc_header) :
    markBy S2 (markBy S1 h) = markBy (S1 ++ S2) h := by
  induction h with
  | nil => rfl
  | cons o rest ih =>
    rw [markBy_cons S1, markBy_cons S2, markBy_cons (S1 ++ S2), ih]
    by_cases h1 : o.addr ∈ S1 <;> by_cases h2 : o.addr ∈ S2 <;>
      simp [h1, h2]

theorem setMark_cons (o : gg_gc_header) (rest : List gg_gc_header) (a : Nat) :
    setMark (o :: rest) a =
      (if o.addr = a then { o with marked := true } else o) :: setMark rest a := rfl

theorem setMark_eq_markBy (heap : List gg_gc_header) (a : Nat) :
    setMark heap a = markBy [a] heap := by
  induction heap with
  | nil => rfl
  | cons o rest ih =>
    rw [setMark_cons, markBy_cons, ih]
    by_cases h1 : o.addr = a <;> simp [h1]

theorem markWordsWith_cons (f : List gg_gc_header → Nat → List gg_gc_header)
    (hp : List gg_gc_header) (w : Nat) (ws : List Nat) :
    markWordsWith f hp (w :: ws) =
      markWordsWith f
        (if w = 0 then hp
         else
           match gg_gc_find_header hp w with
           | none => hp
           | some t => if t.marked then hp else f hp t.addr) ws := rfl

theorem markWordsWith_cons_skip (f : List gg_gc_header → Nat → List gg_gc_header)
    (hp : List gg_gc_header) (w : Nat) (ws : List Nat) (hw : w = 0) :
    markWordsWith f hp (w :: ws) = markWordsWith f hp ws := by
  rw [markWordsWith_cons, if_pos hw]

theorem markWordsWith_cons_none (f : List gg_gc_header → Nat → List gg_gc_header)
    (hp : List gg_gc_header) (w : Nat) (ws : List Nat) (hw : ¬w = 0)
    (hfind : gg_gc_find_header hp w = none) :
    markWordsWith f hp (w :: ws) = markWordsWith f hp ws := by
  rw [markWordsWith_cons, if_neg hw, hfind]

theorem markWordsWith_cons_marked (f : List gg_gc_header → Nat → List gg_gc_header)
    (hp : List gg_gc_header) (w : Nat) (ws : List Nat) (t : gg_gc_header)
    (hw : ¬w = 0) (hfind : gg_gc_find_header hp w = some t) (hm : t.marked = true) :
    markWordsWith f hp (w :: ws) = markWordsWith f hp ws := by
  rw [markWordsWith_cons, if_neg hw, hfind]
  simp [hm]

theorem markWordsWith_cons_go (f : List gg_gc_header → Nat → List gg_gc_header)
    (hp : List gg_gc_header) (w : Nat) (ws : List Nat) (t : gg_gc_header)
    (hw : ¬w = 0) (hfind : gg_gc_find_header hp w = some t) (hm : t.marked = false) :
    markWordsWith f hp (w :: ws) = markWordsWith f (f hp t.addr) ws := by
  rw [markWordsWith_cons, if_neg hw, hfind]
  simp [hm]

theorem markWordsWith_shape (f : List gg_gc_header → Nat → List gg_gc_header)
    (hf : ∀ hp b, ∃ S, f hp b = markBy S hp) :
    ∀ (ws : List Nat) (hp : List gg_gc_header),
      ∃ S, markWordsWith f hp ws = markBy S hp := by
  intro ws
  induction ws with
  | nil => intro hp; exact ⟨[], by simp [markWordsWith, markBy_nilset]⟩
  | cons w tail ih =>
    intro hp
    by_cases hw : w = 0
    · obtain ⟨S, hS⟩ := ih hp
      exact ⟨S, by simpa [markWordsWith, hw] using hS⟩
    · cases hfind : gg_gc_find_header hp w with
      | none =>
        obtain ⟨S, hS⟩ := ih hp
        exact ⟨S, by simpa [markWordsWith, hw, hfind] using hS⟩
      | some t =>
        by_cases hm : t.marked
        · obtain ⟨S, hS⟩ := ih hp
          exact ⟨S, by rw [markWordsWith_cons_marked f hp w tail t hw hfind hm]; exact hS⟩
        · replace hm : t.marked = false := by simpa using hm
          obtain ⟨S1, hS1⟩ := hf hp t.addr
          obtain ⟨S2, hS2⟩ := ih (f hp t.addr)
          refine ⟨S1 ++ S2, ?_⟩
          rw [markWordsWith_cons_go f hp w tail t hw hfind hm, hS2, hS1, markBy_markBy]

theorem gg_gc_mark_object_shape (fuel : Nat) :
    ∀ (heap : List gg_gc_header) (a : Nat),
      ∃ S, gg_gc_mark_object fuel heap a = markBy S heap := by
  induction fuel with
  | zero => intro heap a; exact ⟨[], by simp [gg_gc_mark_object, markBy_nilset]⟩
  | succ fuel ih =>
    intro heap a
    cases hfind : heap.find? (fun o => o.addr == a) with
    | none => exact ⟨[], by simp [gg_gc_mark_object, hfind, markBy_nilset]⟩
    | some h =>
      by_cases hm : h.marked
      · exact ⟨[], by simp [gg_gc_mark_object, hfind, hm, markBy_nilset]⟩
      · obtain ⟨S, hS⟩ :=
          markWordsWith_shape (fun hp b => gg_gc_mark_object fuel hp b)
            (fun hp b => ih hp b) (scanWords h) (setMark heap a)
        refine ⟨a :: S, ?_⟩
        simp only [gg_gc_mark_object, hfind, if_neg (by simp [hm] : ¬(h.marked = true))]
        rw [hS, setMark_eq_markBy, markBy_markBy]
        rfl

theorem gg_gc_mark_shape (deref : Nat → Nat) (roots : List Nat) :
    ∀ heap : List gg_gc_header, ∃ S, gg_gc_mark deref roots heap = markBy S heap := by
  induction roots with
  | nil => intro heap; exact ⟨[], by simp [gg_gc_mark, markBy_nilset]⟩
  | cons r tail ih =>
    intro heap
    by_cases hr : r = 0
    · obtain ⟨S, hS⟩ := ih heap
      exact ⟨S, by simpa [gg_gc_mark, hr] using hS⟩
    · by_cases hv : deref r = 0
      · obtain ⟨S, hS⟩ := ih heap
        exact ⟨S, by simpa [gg_gc_mark, hr, hv] using hS⟩
      · cases hfind : gg_gc_find_header heap (deref r) with
        | none =>
          obtain ⟨S, hS⟩ := ih heap
          exact ⟨S, by simpa [gg_gc_mark, hr, hv, hfind] using hS⟩
        | some h =>
          obtain ⟨S1, hS1⟩ := gg_gc_mark_object_shape heap.length heap h.addr
          obtain ⟨S2, hS2⟩ := ih (gg_gc_mark_object heap.length heap h.addr)
          refine ⟨S1 ++ S2, ?_⟩
          have : gg_gc_mark deref (r :: tail) heap =
              gg_gc_mark deref tail (gg_gc_mark_object heap.length heap h.addr) := by
            simp [gg_gc_mark, hr, hv, hfind]
          rw [this, hS2, hS1, markBy_markBy]

theorem gg_gc_mark_heapBytes (deref : Nat → Nat) (roots : List Nat)
    (heap : List gg_gc_header) :
    heapBytes (gg_gc_mark deref roots heap) = heapBytes heap := by
  obtain ⟨S, hS⟩ := gg_gc_mark_shape deref roots heap
  rw [hS, markBy_heapBytes]

theorem gg_free_unlink_bytes (p : Nat) :
    ∀ (h : List gg_gc_header) (r : List gg_gc_header × gg_gc_header),
      gg_free_unlink p h = some r → heapBytes h = heapBytes r.1 + r.2.size := by
  intro h
  induction h with
  | nil => intro r hr; simp [gg_free_unlink] at hr
  | cons o rest ih =>
    intro r hr
    by_cases ha : o.addr + headerSize = p
    · simp [gg_free_unlink, ha] at hr
      subst hr
      simp [heapBytes_cons]
      omega
    · simp only [gg_free_unlink, if_neg ha] at hr
      cases hrec : gg_free_unlink p rest with
      | none => rw [hrec] at hr; simp at hr
      | some r2 =>
        rw [hrec] at hr
        simp at hr
        subst hr
        have := ih r2 hrec
        simp [heapBytes_cons]
        omega

theorem gg_gc_collect_sizeInv (deref : Nat → Nat) (s : gg_gc_state)
    (h : SizeInv s) : SizeInv (gg_gc_collect deref s) := by
  unfold SizeInv at h ⊢
  have hmark := gg_gc_mark_heapBytes deref s.roots s.heap
  have hsw := sweep_bytes (gg_gc_mark deref s.roots s.heap)
  simp only [gg_gc_collect]
  omega

theorem gg_gc_allocFinish_sizeInv (a : Nat) (s : gg_gc_state) (n : Nat)
    (h : SizeInv s) :
    ∀ s' p, gg_gc_allocFinish a s n = .ok s' p → SizeInv s' := by
  intro s' p heq
  unfold SizeInv at h ⊢
  simp [gg_gc_allocFinish] at heq
  rw [← heq.1]
  simp [heapBytes_cons]
  omega

theorem gg_gc_allocCore_sizeInv (deref : Nat → Nat) (c1 c2 : Option Nat)
    (s : gg_gc_state) (n : Nat) (h : SizeInv s) :
    ∀ s' p, gg_gc_allocCore deref c1 c2 s n = .ok s' p → SizeInv s' := by
  intro s' p heq
  unfold gg_gc_allocCore at heq
  cases c1 with
  | some a => exact gg_gc_allocFinish_sizeInv a s n h s' p heq
  | none =>
    cases c2 with
    | some a =>
      exact gg_gc_allocFinish_sizeInv a (gg_gc_collect deref s) n
        (gg_gc_collect_sizeInv deref s h) s' p heq
    | none => simp at heq

theorem gg_gc_alloc_sizeInv (deref : Nat → Nat) (c1 c2 : Option Nat)
    (s : gg_gc_state) (n : Nat) (h : SizeInv s) :
    ∀ s' p, gg_gc_alloc deref c1 c2 s n = .ok s' p → SizeInv s' := by
  intro s' p heq
  unfold gg_gc_alloc at heq
  have hA : SizeInv (gg_gc_allocPre deref s) := by
    unfold gg_gc_allocPre
    by_cases hc : s.alloc_count ≥ s.threshold
    · rw [if_pos hc]; exact gg_gc_collect_sizeInv deref s h
    · rw [if_neg hc]; exact h
  split at heq
  · split at heq
    · simp at heq
    · exact gg_gc_allocCore_sizeInv deref c1 c2 _ n
        (gg_gc_collect_sizeInv deref _ hA) s' p heq
  · exact gg_gc_allocCore_sizeInv deref c1 c2 _ n hA s' p heq

/-- C3: the sum of the `size` fields over the registry list equals
`total_allocated`: it holds for the `gg_gc_init` state and is preserved by
`gg_gc_alloc` (on every normally-returning path), `gg_gc_collect`,
`gg_free`, and `gg_gc_shutdown`. -/
theorem gg_gc_size_invariant :
    SizeInv gg_gc_init ∧
    (∀ (deref : Nat → Nat) (s : gg_gc_state), SizeInv s →
      SizeInv (gg_gc_collect deref s)) ∧
    (∀ (deref : Nat → Nat) (c1 c2 : Option Nat) (s : gg_gc_state) (n : Nat),
      SizeInv s → ∀ s' p, gg_gc_alloc deref c1 c2 s n = .ok s' p → SizeInv s') ∧
    (∀ (s : gg_gc_state) (p : Nat), SizeInv s → SizeInv (gg_free s p).1) ∧
    (∀ s : gg_gc_state, SizeInv (gg_gc_shutdown s)) := by
  refine ⟨rfl, gg_gc_collect_sizeInv, gg_gc_alloc_sizeInv, ?_, fun s => rfl⟩
  intro s p h
  unfold SizeInv at h ⊢
  by_cases hp : p = 0
  · simp [gg_free, hp]; exact h
  · simp only [gg_free, if_neg hp]
    cases hun : gg_free_unlink p s.heap with
    | none => simpa using h
    | some r =>
      have := gg_free_unlink_bytes p s.heap r hun
      simp only []
      omega

/-- C3 witness: the size invariant instantiated at concrete states: the init
state, a collection from it, a concrete allocation from it, a null free,
and a shutdown. -/
theorem gg_gc_size_invariant_witness :
    SizeInv gg_gc_init ∧
    SizeInv (gg_gc_collect ggDeref0 gg_gc_init) ∧
    (gg_gc_alloc ggDeref0 (some 64) none gg_gc_init 8 = .ok ggAllocState 88 ∧
      SizeInv ggAllocState) ∧
    SizeInv (gg_free gg_gc_init 0).1 ∧
    SizeInv (gg_gc_shutdown gg_gc_init) := by
  have hthm := gg_gc_size_invariant
  have halloc : gg_gc_alloc ggDeref0 (some 64) none gg_gc_init 8 = .ok ggAllocState 88 := by
    decide
  refine ⟨hthm.1, hthm.2.1 ggDeref0 gg_gc_init hthm.1, ⟨halloc, ?_⟩,
    hthm.2.2.2.1 gg_gc_init 0 hthm.1, hthm.2.2.2.2 gg_gc_init⟩
  exact hthm.2.2.1 ggDeref0 (some 64) none gg_gc_init 8 hthm.1 ggAllocState 88 halloc

/-- C4 counterexample: `gg_gc_shutdown` does not restore the `gg_gc_init`
state when a memory limit was set, because the C code never clears
`memory_limit` (nor `threshold`, `collections`, `total_collected`). -/
theorem gg_gc_shutdown_ne_init : gg_gc_shutdown ggLimitState ≠ gg_gc_init := by
  decide

/-- C4 (amended): after `gg_gc_shutdown()` the list head, root count,
allocation counter and byte total match the `gg_gc_init` state, but
`threshold`, `collections` and `memory_limit` keep their pre-shutdown
values and `total_collected` grows by the bytes of the freed objects —
they are not reset to the init values. -/
theorem gg_gc_shutdown_state (s : gg_gc_state) :
    (gg_gc_shutdown s).heap = gg_gc_init.heap ∧
    (gg_gc_shutdown s).roots = gg_gc_init.roots ∧
    (gg_gc_shutdown s).alloc_count = gg_gc_init.alloc_count ∧
    (gg_gc_shutdown s).total_allocated = gg_gc_init.total_allocated ∧
    (gg_gc_shutdown s).threshold = s.threshold ∧
    (gg_gc_shutdown s).collections = s.collections ∧
    (gg_gc_shutdown s).memory_limit = s.memory_limit ∧
    (gg_gc_shutdown s).total_collected = s.total_collected + heapBytes s.heap :=
  ⟨rfl, rfl, rfl, rfl, rfl, rfl, rfl, rfl⟩

/-- C5: every `gg_gc_collect()` resets the allocation-since-last-GC counter
to zero, increments the cycle counter by one, and doubles the threshold
exactly when the number of surviving objects exceeds `threshold / 2`,
leaving it unchanged otherwise. -/
theorem gg_gc_collect_bookkeeping (deref : Nat → Nat) (s : gg_gc_state) :
    (gg_gc_collect deref s).alloc_count = 0 ∧
    (gg_gc_collect deref s).collections = s.collections + 1 ∧
    (gg_gc_collect deref s).threshold =
      (if (gg_gc_collect deref s).heap.length > s.threshold / 2 then s.threshold * 2
       else s.threshold) :=
  ⟨rfl, rfl, rfl⟩

theorem add_root_roots_len (t : gg_gc_state) (r : Nat) :
    t.roots.length ≤ ((gg_gc_add_root t r).1).roots.length := by
  unfold gg_gc_add_root
  by_cases hc : t.roots.length ≥ GG_GC_MAX_ROOTS
  · rw [if_pos hc]
  · rw [if_neg hc]
    simp

theorem foldl_add_root_len (rs : List Nat) :
    ∀ t : gg_gc_state,
      t.roots.length ≤ (rs.foldl (fun u r => (gg_gc_add_root u r).1) t).roots.length := by
  induction rs with
  | nil => intro t; simp
  | cons r tail ih =>
    intro t
    calc t.roots.length ≤ ((gg_gc_add_root t r).1).roots.length :=
          add_root_roots_len t r
      _ ≤ _ := by simpa using ih (gg_gc_add_root t r).1

/-- C6: a `gg_gc_push_root_frame` token records the root count; after any
number of `gg_gc_add_root` calls, `gg_gc_pop_root_frame` with that token
truncates the root vector back to exactly the count before the push. -/
theorem gg_gc_root_frame_balance (s : gg_gc_state) (rs : List Nat) :
    (gg_gc_pop_root_frame
       (rs.foldl (fun u r => (gg_gc_add_root u r).1) (gg_gc_push_root_frame s).1)
       (gg_gc_push_root_frame s).2).roots.length = s.roots.length := by
  have h := foldl_add_root_len rs (gg_gc_push_root_frame s).1
  simp only [gg_gc_push_root_frame] at h ⊢
  simp only [gg_gc_pop_root_frame, List.length_take]
  omega

/-- C8: `gg_gc_add_root` at full capacity (4096 roots) emits exactly one
stderr diagnostic, drops the root and leaves the root set unchanged, and
below capacity appends the root, growing the count by one, with no
diagnostic. -/
theorem gg_gc_add_root_capacity (s : gg_gc_state) (r : Nat) :
    (s.roots.length = GG_GC_MAX_ROOTS →
      gg_gc_add_root s r =
        (s, ["[ggLang GC] Warning: root set overflow, ignoring root"])) ∧
    (s.roots.length < GG_GC_MAX_ROOTS →
      gg_gc_add_root s r = ({ s with roots := s.roots ++ [r] }, []) ∧
      ((gg_gc_add_root s r).1).roots.length = s.roots.length + 1) := by
  constructor
  · intro h
    unfold gg_gc_add_root
    rw [if_pos (le_of_eq h.symm)]
  · intro h
    have heq : gg_gc_add_root s r = ({ s with roots := s.roots ++ [r] }, []) := by
      unfold gg_gc_add_root
      rw [if_neg (by omega)]
    refine ⟨heq, ?_⟩
    rw [heq]
    simp

/-- C8 witness: the overflow branch at a state with exactly 4096 roots, and
the append branch at the init state. -/
theorem gg_gc_add_root_capacity_witness :
    (ggFullRootState.roots.length = GG_GC_MAX_ROOTS ∧
      gg_gc_add_root ggFullRootState 7 =
        (ggFullRootState, ["[ggLang GC] Warning: root set overflow, ignoring root"])) ∧
    (gg_gc_init.roots.length < GG_GC_MAX_ROOTS ∧
      gg_gc_add_root gg_gc_init 7 = ({ gg_gc_init with roots := [7] }, []) ∧
      ((gg_gc_add_root gg_gc_init 7).1).roots.length = gg_gc_init.roots.length + 1) := by
  have hfull : ggFullRootState.roots.length = GG_GC_MAX_ROOTS := by
    simp [ggFullRootState]
  have hempty : gg_gc_init.roots.length < GG_GC_MAX_ROOTS := by
    simp [gg_gc_init, GG_GC_MAX_ROOTS]
  refine ⟨⟨hfull, (gg_gc_add_root_capacity ggFullRootState 7).1 hfull⟩,
    ⟨hempty, ?_, ((gg_gc_add_root_capacity gg_gc_init 7).2 hempty).2⟩⟩
  have := ((gg_gc_add_root_capacity gg_gc_init 7).2 hempty).1
  simpa using this

/-- C10: `gg_free` (and `Memory_free`, which delegates to it) on the null
pointer returns immediately: the state is unchanged and no address is
passed to the host allocator. -/
theorem gg_free_null_noop (s : gg_gc_state) :
    gg_free s 0 = (s, []) ∧ Memory_free s 0 = (s, []) :=
  ⟨rfl, rfl⟩

theorem gg_gc_collect_total_le (deref : Nat → Nat) (s : gg_gc_state) :
    (gg_gc_collect deref s).total_allocated ≤ s.total_allocated :=
  Nat.sub_le _ _

theorem gg_gc_collect_memlimit (deref : Nat → Nat) (s : gg_gc_state) :
    (gg_gc_collect deref s).memory_limit = s.memory_limit := rfl

theorem gg_gc_allocPre_memlimit (deref : Nat → Nat) (s : gg_gc_state) :
    (gg_gc_allocPre deref s).memory_limit = s.memory_limit := by
  unfold gg_gc_allocPre
  split <;> rfl

theorem gg_gc_allocCore_ceiling_ok (deref : Nat → Nat) (c1 c2 : Option Nat)
    (s : gg_gc_state) (n : Nat) (hb : s.total_allocated + n ≤ s.memory_limit) :
    ∀ s' p, gg_gc_allocCore deref c1 c2 s n = .ok s' p →
      s'.total_allocated ≤ s'.memory_limit := by
  intro s' p heq
  unfold gg_gc_allocCore at heq
  cases c1 with
  | some a =>
    simp [gg_gc_allocFinish] at heq
    obtain ⟨h1, h2⟩ := heq
    rw [← h1]
    simp
    omega
  | none =>
    cases c2 with
    | some a =>
      simp [gg_gc_allocFinish] at heq
      obtain ⟨h1, h2⟩ := heq
      rw [← h1]
      simp
      have h3 := gg_gc_collect_total_le deref s
      have h4 := gg_gc_collect_memlimit deref s
      omega
    | none => simp at heq

/-- C2: with a positive memory ceiling, no `gg_gc_alloc` call returns
normally with `total_allocated` above `memory_limit`; and when
`total_allocated + n` still exceeds the ceiling after the forced
collection, the call terminates with exit code 137 and the three-line
stderr message naming the allocated, limit and requested byte counts. -/
theorem gg_gc_alloc_memory_ceiling (deref : Nat → Nat) (c1 c2 : Option Nat)
    (s : gg_gc_state) (n : Nat) (hlim : 0 < s.memory_limit) :
    (∀ s' p, gg_gc_alloc deref c1 c2 s n = .ok s' p →
      s'.total_allocated ≤ s'.memory_limit) ∧
    ((gg_gc_allocPre deref s).total_allocated + n > s.memory_limit →
      (gg_gc_collect deref (gg_gc_allocPre deref s)).total_allocated + n >
        s.memory_limit →
      gg_gc_alloc deref c1 c2 s n =
        .fatal 137
          [ggLimitMsg (gg_gc_collect deref (gg_gc_allocPre deref s)).total_allocated
             s.memory_limit n, ggLimitMsg2, ggLimitMsg3]) := by
  have hA := gg_gc_allocPre_memlimit deref s
  have hB := gg_gc_collect_memlimit deref (gg_gc_allocPre deref s)
  constructor
  · intro s' p heq
    unfold gg_gc_alloc at heq
    split at heq
    · split at heq
      · simp at heq
      · rename_i hc2
        exact gg_gc_allocCore_ceiling_ok deref c1 c2 _ n (by omega) s' p heq
    · rename_i hc1
      rw [not_and_or] at hc1
      have hble : (gg_gc_allocPre deref s).total_allocated + n ≤
          (gg_gc_allocPre deref s).memory_limit := by
        rcases hc1 with h | h
        · omega
        · omega
      exact gg_gc_allocCore_ceiling_ok deref c1 c2 _ n hble s' p heq
  · intro hover1 hover2
    unfold gg_gc_alloc
    rw [if_pos (by constructor <;> omega :
      (gg_gc_allocPre deref s).memory_limit > 0 ∧
        (gg_gc_allocPre deref s).total_allocated + n >
          (gg_gc_allocPre deref s).memory_limit)]
    rw [if_pos (by omega :
      (gg_gc_collect deref (gg_gc_allocPre deref s)).total_allocated + n >
        (gg_gc_collect deref (gg_gc_allocPre deref s)).memory_limit)]
    rw [hB, hA]

theorem sweep_fst_unmarked :
    ∀ (h : List gg_gc_header) (o : gg_gc_header),
      o ∈ (gg_gc_sweep h).1 → o.marked = false := by
  intro h
  induction h with
  | nil => intro o ho; simp [gg_gc_sweep] at ho
  | cons x rest ih =>
    intro o ho
    rw [sweep_cons] at ho
    by_cases hm : x.marked
    · rw [if_pos hm] at ho
      rcases List.mem_cons.mp ho with h1 | h1
      · rw [h1]
      · exact ih o h1
    · rw [if_neg hm] at ho
      exact ih o ho

theorem gg_gc_collect_marks (deref : Nat → Nat) (s : gg_gc_state) :
    ∀ o ∈ (gg_gc_collect deref s).heap, o.marked = false :=
  fun o ho => sweep_fst_unmarked (gg_gc_mark deref s.roots s.heap) o ho

theorem gg_gc_allocFinish_marks (a : Nat) (s : gg_gc_state) (n : Nat)
    (hs : ∀ o ∈ s.heap, o.marked = false) :
    ∀ s' p, gg_gc_allocFinish a s n = .ok s' p → ∀ o ∈ s'.heap, o.marked = false := by
  intro s' p heq o ho
  simp [gg_gc_allocFinish] at heq
  rw [← heq.1] at ho
  simp at ho
  rcases ho with h1 | h1
  · rw [h1]
  · exact hs o h1

theorem gg_gc_allocCore_marks (deref : Nat → Nat) (c1 c2 : Option Nat)
    (s : gg_gc_state) (n : Nat) (hs : ∀ o ∈ s.heap, o.marked = false) :
    ∀ s' p, gg_gc_allocCore deref c1 c2 s n = .ok s' p →
      ∀ o ∈ s'.heap, o.marked = false := by
  intro s' p heq
  unfold gg_gc_allocCore at heq
  cases c1 with
  | some a => exact gg_gc_allocFinish_marks a s n hs s' p heq
  | none =>
    cases c2 with
    | some a =>
      exact gg_gc_allocFinish_marks a (gg_gc_collect deref s) n
        (gg_gc_collect_marks deref s) s' p heq
    | none => simp at heq

/-- C7: every object on the registry list after `gg_gc_collect()` has mark
bit 0 (the sweep clears survivors unconditionally); and `gg_gc_alloc`
preserves the all-clear state on every normally-returning path, the new
object starting with mark bit 0. -/
theorem gg_gc_marks_clear :
    (∀ (deref : Nat → Nat) (s : gg_gc_state),
      ∀ o ∈ (gg_gc_collect deref s).heap, o.marked = false) ∧
    (∀ (deref : Nat → Nat) (c1 c2 : Option Nat) (s : gg_gc_state) (n : Nat)
        (s' : gg_gc_state) (p : Nat),
      gg_gc_alloc deref c1 c2 s n = .ok s' p →
      (∀ o ∈ s.heap, o.marked = false) →
      ∀ o ∈ s'.heap, o.marked = false) := by
  refine ⟨gg_gc_collect_marks, ?_⟩
  intro deref c1 c2 s n s' p heq hs
  unfold gg_gc_alloc at heq
  split at heq
  · split at heq
    · simp at heq
    · exact gg_gc_allocCore_marks deref c1 c2 _ n (gg_gc_collect_marks deref _) s' p heq
  · have hsA : ∀ o ∈ (gg_gc_allocPre deref s).heap, o.marked = false := by
      unfold gg_gc_allocPre
      split
      · exact gg_gc_collect_marks deref s
      · exact hs
    exact gg_gc_allocCore_marks deref c1 c2 _ n hsA s' p heq

/-- C7 witness: the survivor of a concrete collection has mark bit 0, and a
concrete allocation from the init state leaves every object unmarked. -/
theorem gg_gc_marks_clear_witness :
    (({ addr := 100, size := 8, marked := false, body := [0] } : gg_gc_header) ∈
        (gg_gc_collect ggTwoDeref ggTwoState).heap ∧
      ({ addr := 100, size := 8, marked := false, body := [0] } : gg_gc_header).marked =
        false) ∧
    (gg_gc_alloc ggDeref0 (some 64) none gg_gc_init 8 = .ok ggAllocState 88 ∧
      (∀ o ∈ gg_gc_init.heap, o.marked = false) ∧
      ∀ o ∈ ggAllocState.heap, o.marked = false) := by
  have hmem : ({ addr := 100, size := 8, marked := false, body := [0] } : gg_gc_header) ∈
      (gg_gc_collect ggTwoDeref ggTwoState).heap := by decide
  have halloc : gg_gc_alloc ggDeref0 (some 64) none gg_gc_init 8 = .ok ggAllocState 88 := by
    decide
  have hinit : ∀ o ∈ gg_gc_init.heap, o.marked = false := by
    intro o ho; simp [gg_gc_init] at ho
  exact ⟨⟨hmem, gg_gc_marks_clear.1 ggTwoDeref ggTwoState _ hmem⟩,
    ⟨halloc, hinit, gg_gc_marks_clear.2 ggDeref0 (some 64) none gg_gc_init 8
      ggAllocState 88 halloc hinit⟩⟩

/-- C2 witness: the ceiling property instantiated at a concrete state with
memory limit 5. -/
theorem gg_gc_alloc_memory_ceiling_witness :
    0 < ggLimitState.memory_limit ∧
    ((∀ s' p, gg_gc_alloc ggDeref0 (some 64) none ggLimitState 4 = .ok s' p →
        s'.total_allocated ≤ s'.memory_limit) ∧
      ((gg_gc_allocPre ggDeref0 ggLimitState).total_allocated + 4 >
          ggLimitState.memory_limit →
        (gg_gc_collect ggDeref0 (gg_gc_allocPre ggDeref0 ggLimitState)).total_allocated + 4 >
          ggLimitState.memory_limit →
        gg_gc_alloc ggDeref0 (some 64) none ggLimitState 4 =
          .fatal 137
            [ggLimitMsg
               (gg_gc_collect ggDeref0 (gg_gc_allocPre ggDeref0 ggLimitState)).total_allocated
               ggLimitState.memory_limit 4, ggLimitMsg2, ggLimitMsg3])) :=
  ⟨by decide, gg_gc_alloc_memory_ceiling ggDeref0 (some 64) none ggLimitState 4 (by decide)⟩

theorem unmarkedCount_cons (o : gg_gc_header) (rest : List gg_gc_header) :
    unmarkedCount (o :: rest) = (if o.marked then 0 else 1) + unmarkedCount rest := by
  by_cases hm : o.marked
  · simp [unmarkedCount, List.filter_cons, hm]
  · simp [unmarkedCount, List.filter_cons, hm]
    omega

theorem unmarkedCount_le_length (h : List gg_gc_header) :
    unmarkedCount h ≤ h.length :=
  List.length_filter_le _ _

theorem unmarkedCount_markBy_le (S : List Nat) (h : List gg_gc_header) :
    unmarkedCount (markBy S h) ≤ unmarkedCount h := by
  induction h with
  | nil => exact le_rfl
  | cons o rest ih =>
    rw [markBy_cons, unmarkedCount_cons, unmarkedCount_cons]
    by_cases hs : o.addr ∈ S
    · rw [if_pos hs]
      simp only [show ({ o with marked := true } : gg_gc_header).marked = true from rfl,
        if_pos]
      omega
    · rw [if_neg hs]
      omega

theorem unmarkedCount_setMark_le (heap : List gg_gc_header) (a : Nat) :
    unmarkedCount (setMark heap a) ≤ unmarkedCount heap := by
  rw [setMark_eq_markBy]
  exact unmarkedCount_markBy_le [a] heap

theorem unmarkedCount_setMark_lt (a : Nat) (o : gg_gc_header)
    (hoa : o.addr = a) (hm : o.marked = false) :
    ∀ heap : List gg_gc_header, o ∈ heap →
      unmarkedCount (setMark heap a) < unmarkedCount heap := by
  intro heap
  induction heap with
  | nil => intro ho; simp at ho
  | cons x rest ih =>
    intro ho
    rw [setMark_cons, unmarkedCount_cons, unmarkedCount_cons]
    have htail := unmarkedCount_setMark_le rest a
    rcases List.mem_cons.mp ho with h1 | h1
    · subst h1
      rw [if_pos hoa]
      simp only [show ({ o with marked := true } : gg_gc_header).marked = true from rfl,
        if_pos, hm]
      simp
      omega
    · have hstrict := ih h1
      by_cases hx : x.addr = a
      · rw [if_pos hx]
        simp only [show ({ x with marked := true } : gg_gc_header).marked = true from rfl,
          if_pos]
        omega
      · rw [if_neg hx]
        omega

theorem unmarkedCount_zero_all_marked (h : List gg_gc_header)
    (hc : unmarkedCount h = 0) : ∀ o ∈ h, o.marked = true := by
  intro o ho
  by_contra hm
  replace hm : o.marked = false := by simpa using hm
  unfold unmarkedCount at hc
  have hc2 : h.filter (fun o2 => !o2.marked) = [] := List.length_eq_zero.mp hc
  have h1 : o ∈ h.filter (fun o2 => !o2.marked) :=
    List.mem_filter.mpr ⟨ho, by simp [hm]⟩
  rw [hc2] at h1
  simp at h1

theorem gg_gc_mark_object_all_marked (f : Nat) (heap : List gg_gc_header) (a : Nat)
    (hall : ∀ o ∈ heap, o.marked = true) : gg_gc_mark_object f heap a = heap := by
  cases f with
  | zero => rfl
  | succ f =>
    cases hfind : heap.find? (fun o => o.addr == a) with
    | none => simp [gg_gc_mark_object, hfind]
    | some h =>
      have hh : h ∈ heap := List.mem_of_find?_eq_some hfind
      simp [gg_gc_mark_object, hfind, hall h hh]

theorem gg_gc_mark_object_fuel (n : Nat) :
    ∀ (heap : List gg_gc_header) (a : Nat) (f1 f2 : Nat),
      unmarkedCount heap ≤ n → n ≤ f1 → n ≤ f2 →
      gg_gc_mark_object f1 heap a = gg_gc_mark_object f2 heap a := by
  induction n using Nat.strong_induction_on with
  | _ n IH =>
    intro heap a f1 f2 hc h1 h2
    cases n with
    | zero =>
      have hall := unmarkedCount_zero_all_marked heap (Nat.le_zero.mp hc)
      rw [gg_gc_mark_object_all_marked f1 heap a hall,
          gg_gc_mark_object_all_marked f2 heap a hall]
    | succ m =>
      obtain ⟨f1', rfl⟩ : ∃ k, f1 = k + 1 := ⟨f1 - 1, by omega⟩
      obtain ⟨f2', rfl⟩ : ∃ k, f2 = k + 1 := ⟨f2 - 1, by omega⟩
      cases hfind : heap.find? (fun o => o.addr == a) with
      | none => simp [gg_gc_mark_object, hfind]
      | some h =>
        by_cases hm : h.marked
        · simp [gg_gc_mark_object, hfind, hm]
        · replace hm : h.marked = false := by simpa using hm
          have hh : h ∈ heap := List.mem_of_find?_eq_some hfind
          have hha : h.addr = a := by
            have := List.find?_some hfind
            simpa using this
          have hcnt : unmarkedCount (setMark heap a) ≤ m := by
            have := unmarkedCount_setMark_lt a h hha hm heap hh
            omega
          have W : ∀ (ws : List Nat) (hp : List gg_gc_header),
              unmarkedCount hp ≤ m →
              markWordsWith (fun hp2 b => gg_gc_mark_object f1' hp2 b) hp ws =
                markWordsWith (fun hp2 b => gg_gc_mark_object f2' hp2 b) hp ws := by
            intro ws
            induction ws with
            | nil => intro hp hcp; rfl
            | cons w tail ihw =>
              intro hp hcp
              by_cases hw : w = 0
              · rw [markWordsWith_cons_skip (fun hp2 b => gg_gc_mark_object f1' hp2 b)
                      hp w tail hw,
                    markWordsWith_cons_skip (fun hp2 b => gg_gc_mark_object f2' hp2 b)
                      hp w tail hw]
                exact ihw hp hcp
              · cases hfind2 : gg_gc_find_header hp w with
                | none =>
                  rw [markWordsWith_cons_none (fun hp2 b => gg_gc_mark_object f1' hp2 b)
                        hp w tail hw hfind2,
                      markWordsWith_cons_none (fun hp2 b => gg_gc_mark_object f2' hp2 b)
                        hp w tail hw hfind2]
                  exact ihw hp hcp
                | some t =>
                  by_cases hm2 : t.marked
                  · rw [markWordsWith_cons_marked (fun hp2 b => gg_gc_mark_object f1' hp2 b)
                          hp w tail t hw hfind2 hm2,
                        markWordsWith_cons_marked (fun hp2 b => gg_gc_mark_object f2' hp2 b)
                          hp w tail t hw hfind2 hm2]
                    exact ihw hp hcp
                  · replace hm2 : t.marked = false := by simpa using hm2
                    rw [markWordsWith_cons_go (fun hp2 b => gg_gc_mark_object f1' hp2 b)
                          hp w tail t hw hfind2 hm2,
                        markWordsWith_cons_go (fun hp2 b => gg_gc_mark_object f2' hp2 b)
                          hp w tail t hw hfind2 hm2]
                    have heq := IH m (by omega) hp t.addr f1' f2' hcp (by omega) (by omega)
                    rw [heq]
                    apply ihw
                    obtain ⟨S, hS⟩ := gg_gc_mark_object_shape f2' hp t.addr
                    rw [hS]
                    calc unmarkedCount (markBy S hp) ≤ unmarkedCount hp :=
                          unmarkedCount_markBy_le S hp
                      _ ≤ m := hcp
          have e1 : gg_gc_mark_object (f1' + 1) heap a =
              markWordsWith (fun hp b => gg_gc_mark_object f1' hp b)
                (setMark heap a) (scanWords h) := by
            simp [gg_gc_mark_object, hfind, hm]
          have e2 : gg_gc_mark_object (f2' + 1) heap a =
              markWordsWith (fun hp b => gg_gc_mark_object f2' hp b)
                (setMark heap a) (scanWords h) := by
            simp [gg_gc_mark_object, hfind, hm]
          rw [e1, e2]
          exact W (scanWords h) (setMark heap a) hcnt

/-- C9: the recursive mark phase terminates on every finite heap, cycles
included: because `gg_gc_mark_object` sets the mark bit before scanning and
returns at once on marked or absent headers, a recursion budget of
`unmarkedCount heap` suffices, and any two sufficient budgets compute the
same marking. -/
theorem gg_gc_mark_object_fuel_irrel (heap : List gg_gc_header) (a : Nat)
    (f1 f2 : Nat) (h1 : unmarkedCount heap ≤ f1) (h2 : unmarkedCount heap ≤ f2) :
    gg_gc_mark_object f1 heap a = gg_gc_mark_object f2 heap a :=
  gg_gc_mark_object_fuel (unmarkedCount heap) heap a f1 f2 le_rfl h1 h2

/-- C9 witness: on a concrete two-object reference cycle, the budget 2
(the number of unmarked objects) and any larger budget agree. -/
theorem gg_gc_mark_object_fuel_irrel_witness :
    unmarkedCount ggCycleHeap ≤ 2 ∧ unmarkedCount ggCycleHeap ≤ 9 ∧
    gg_gc_mark_object 2 ggCycleHeap 100 = gg_gc_mark_object 9 ggCycleHeap 100 :=
  ⟨by decide, by decide,
    gg_gc_mark_object_fuel_irrel ggCycleHeap 100 2 9 (by decide) (by decide)⟩

theorem find?_markBy (S : List Nat) (h : List gg_gc_header) (p : Nat → Bool) :
    (markBy S h).find? (fun o => p o.addr) =
      (h.find? (fun o => p o.addr)).map
        (fun o => if o.addr ∈ S then { o with marked := true } else o) := by
  induction h with
  | nil => rfl
  | cons x rest ih =>
    rw [markBy_cons]
    by_cases hx : p x.addr
    · have hx2 : p ((if x.addr ∈ S then { x with marked := true } else x) :
          gg_gc_header).addr = true := by
        by_cases hs : x.addr ∈ S <;> simp [hs, hx]
      simp only [List.find?, hx2, hx]
      rfl
    · replace hx : p x.addr = false := by simpa using hx
      have hx2 : p ((if x.addr ∈ S then { x with marked := true } else x) :
          gg_gc_header).addr = false := by
        by_cases hs : x.addr ∈ S <;> simp [hs, hx]
      simp only [List.find?, hx2, hx]
      exact ih

theorem gg_gc_find_header_markBy (S : List Nat) (h : List gg_gc_header) (w : Nat) :
    gg_gc_find_header (markBy S h) w =
      (gg_gc_find_header h w).map
        (fun o => if o.addr ∈ S then { o with marked := true } else o) := by
  unfold gg_gc_find_header
  by_cases hw : w = 0
  · rw [if_pos hw, if_pos hw]
    rfl
  · rw [if_neg hw, if_neg hw]
    have := find?_markBy S h (fun n => n + headerSize == w)
    simpa using this

theorem find?_addr_markBy (S : List Nat) (h : List gg_gc_header) (a : Nat) :
    (markBy S h).find? (fun o => o.addr == a) =
      (h.find? (fun o => o.addr == a)).map
        (fun o => if o.addr ∈ S then { o with marked := true } else o) := by
  have := find?_markBy S h (fun n => n == a)
  simpa using this

theorem markFn_addr (S : List Nat) (o : gg_gc_header) :
    ((if o.addr ∈ S then { o with marked := true } else o) : gg_gc_header).addr =
      o.addr := by
  by_cases hs : o.addr ∈ S <;> simp [hs]

theorem markFn_scanWords (S : List Nat) (o : gg_gc_header) :
    scanWords (if o.addr ∈ S then { o with marked := true } else o) = scanWords o := by
  by_cases hs : o.addr ∈ S <;> simp [hs, scanWords]

theorem markFn_marked_of (S : List Nat) (o : gg_gc_header) (hm : o.marked = true) :
    ((if o.addr ∈ S then { o with marked := true } else o) : gg_gc_header).marked =
      true := by
  by_cases hs : o.addr ∈ S <;> simp [hs, hm]

theorem markBy_map_addr (S : List Nat) (h : List gg_gc_header) :
    (markBy S h).map (fun o => o.addr) = h.map (fun o => o.addr) := by
  induction h with
  | nil => rfl
  | cons x rest ih =>
    rw [markBy_cons]
    simp only [List.map_cons, markFn_addr, ih]

theorem nodup_addr_unique (h : List gg_gc_header)
    (hnd : (h.map (fun o => o.addr)).Nodup) (o1 o2 : gg_gc_header)
    (h1 : o1 ∈ h) (h2 : o2 ∈ h) (heq : o1.addr = o2.addr) : o1 = o2 :=
  List.inj_on_of_nodup_map hnd h1 h2 heq

theorem ggMarkedAt_markBy_mono (S : List Nat) (h : List gg_gc_header) (x : Nat)
    (hm : ggMarkedAt h x) : ggMarkedAt (markBy S h) x := by
  obtain ⟨o, ho, hoa, hom⟩ := hm
  exact ⟨if o.addr ∈ S then { o with marked := true } else o,
    List.mem_map_of_mem _ ho, by rw [markFn_addr, hoa], markFn_marked_of S o hom⟩

theorem ggMarkedAt_setMark_inv (heap : List gg_gc_header) (a x : Nat)
    (hx : ggMarkedAt (setMark heap a) x) : ggMarkedAt heap x ∨ x = a := by
  obtain ⟨o', ho', hoa, hom⟩ := hx
  rw [setMark_eq_markBy] at ho'
  obtain ⟨o, ho, rfl⟩ := List.mem_map.mp ho'
  by_cases hs : o.addr ∈ [a]
  · right
    rw [← hoa, markFn_addr]
    simpa using hs
  · left
    refine ⟨o, ho, ?_, ?_⟩
    · rw [← hoa, markFn_addr]
    · rw [if_neg hs] at hom
      exact hom

theorem gg_gc_find_header_mem (heap : List gg_gc_header) (w : Nat)
    (t : gg_gc_header) (hf : gg_gc_find_header heap w = some t) : t ∈ heap := by
  unfold gg_gc_find_header at hf
  by_cases hw : w = 0
  · rw [if_pos hw] at hf; simp at hf
  · rw [if_neg hw] at hf
    exact List.mem_of_find?_eq_some hf

theorem ggReaches_trans (heap : List gg_gc_header) (a b x : Nat)
    (h1 : ggReaches heap a b) (h2 : ggReaches heap b x) : ggReaches heap a x := by
  induction h2 with
  | refl => exact h1
  | step b' w o t hb ho hoa hw hf ih => exact ggReaches.step b' w o t ih ho hoa hw hf

theorem ggReaches_markBy_of (S : List Nat) (heap : List gg_gc_header) (a x : Nat)
    (h : ggReaches (markBy S heap) a x) : ggReaches heap a x := by
  induction h with
  | refl => exact .refl
  | step b w o' t' hb ho hoa hw hf ih =>
    obtain ⟨o, ho0, rfl⟩ := List.mem_map.mp ho
    rw [gg_gc_find_header_markBy] at hf
    obtain ⟨t, ht, rfl⟩ := Option.map_eq_some'.mp hf
    rw [markFn_addr]
    refine ggReaches.step b w o t ih ho0 ?_ ?_ ht
    · rw [← hoa, markFn_addr]
    · rw [markFn_scanWords] at hw
      exact hw

theorem ggReaches_of_markBy (S : List Nat) (heap : List gg_gc_header) (a x : Nat)
    (h : ggReaches heap a x) : ggReaches (markBy S heap) a x := by
  induction h with
  | refl => exact .refl
  | step b w o t hb ho hoa hw hf ih =>
    have hf2 : gg_gc_find_header (markBy S heap) w =
        some (if t.addr ∈ S then { t with marked := true } else t) := by
      rw [gg_gc_find_header_markBy, hf]
      rfl
    have hstep : ggReaches (markBy S heap) a
        ((if t.addr ∈ S then { t with marked := true } else t) :
          gg_gc_header).addr :=
      ggReaches.step b w
        (if o.addr ∈ S then { o with marked := true } else o)
        (if t.addr ∈ S then { t with marked := true } else t)
        ih (List.mem_map_of_mem _ ho) (by rw [markFn_addr]; exact hoa)
        (by rw [markFn_scanWords]; exact hw) hf2
    rw [markFn_addr] at hstep
    exact hstep

theorem ggReachable_step_reaches (deref : Nat → Nat) (roots : List Nat)
    (heap : List gg_gc_header) (x y : Nat)
    (hx : ggReachable deref roots heap x) (hr : ggReaches heap x y) :
    ggReachable deref roots heap y := by
  induction hr with
  | refl => exact hx
  | step b w o t hb ho hoa hw hf ih => exact ggReachable.step b w o t ih ho hoa hw hf

theorem ggReachable_tail (deref : Nat → Nat) (r : Nat) (roots : List Nat)
    (heap : List gg_gc_header) (x : Nat)
    (h : ggReachable deref roots heap x) : ggReachable deref (r :: roots) heap x := by
  induction h with
  | root r' o hr hr0 hf => exact .root r' o (List.mem_cons_of_mem r hr) hr0 hf
  | step a w o t ha ho hoa hw hf ih => exact .step a w o t ih ho hoa hw hf

theorem ggReachable_markBy_of (deref : Nat → Nat) (roots : List Nat) (S : List Nat)
    (heap : List gg_gc_header) (x : Nat)
    (h : ggReachable deref roots (markBy S heap) x) : ggReachable deref roots heap x := by
  induction h with
  | root r o' hr hr0 hf =>
    rw [gg_gc_find_header_markBy] at hf
    obtain ⟨o, ho, rfl⟩ := Option.map_eq_some'.mp hf
    rw [markFn_addr]
    exact .root r o hr hr0 ho
  | step a w o' t' ha ho hoa hw hf ih =>
    obtain ⟨o, ho0, rfl⟩ := List.mem_map.mp ho
    rw [gg_gc_find_header_markBy] at hf
    obtain ⟨t, ht, rfl⟩ := Option.map_eq_some'.mp hf
    rw [markFn_addr]
    refine ggReachable.step a w o t ih ho0 ?_ ?_ ht
    · rw [← hoa, markFn_addr]
    · rw [markFn_scanWords] at hw
      exact hw

theorem gg_gc_mark_cons (deref : Nat → Nat) (r : Nat) (tail : List Nat)
    (heap : List gg_gc_header) :
    gg_gc_mark deref (r :: tail) heap =
      gg_gc_mark deref tail
        (if r = 0 then heap
         else if deref r = 0 then heap
         else
           match gg_gc_find_header heap (deref r) with
           | none => heap
           | some h => gg_gc_mark_object heap.length heap h.addr) := rfl

theorem gg_gc_mark_cons_skip (deref : Nat → Nat) (r : Nat) (tail : List Nat)
    (heap : List gg_gc_header) (hr : r = 0) :
    gg_gc_mark deref (r :: tail) heap = gg_gc_mark deref tail heap := by
  rw [gg_gc_mark_cons, if_pos hr]

theorem gg_gc_mark_cons_null (deref : Nat → Nat) (r : Nat) (tail : List Nat)
    (heap : List gg_gc_header) (hr : ¬r = 0) (hv : deref r = 0) :
    gg_gc_mark deref (r :: tail) heap = gg_gc_mark deref tail heap := by
  rw [gg_gc_mark_cons, if_neg hr, if_pos hv]

theorem gg_gc_mark_cons_none (deref : Nat → Nat) (r : Nat) (tail : List Nat)
    (heap : List gg_gc_header) (hr : ¬r = 0) (hv : ¬deref r = 0)
    (hfind : gg_gc_find_header heap (deref r) = none) :
    gg_gc_mark deref (r :: tail) heap = gg_gc_mark deref tail heap := by
  rw [gg_gc_mark_cons, if_neg hr, if_neg hv, hfind]

theorem gg_gc_mark_cons_go (deref : Nat → Nat) (r : Nat) (tail : List Nat)
    (heap : List gg_gc_header) (h : gg_gc_header) (hr : ¬r = 0) (hv : ¬deref r = 0)
    (hfind : gg_gc_find_header heap (deref r) = some h) :
    gg_gc_mark deref (r :: tail) heap =
      gg_gc_mark deref tail (gg_gc_mark_object heap.length heap h.addr) := by
  rw [gg_gc_mark_cons, if_neg hr, if_neg hv, hfind]

theorem gg_gc_mark_object_sound (fuel : Nat) :
    ∀ (heap : List gg_gc_header) (a x : Nat),
      ggMarkedAt (gg_gc_mark_object fuel heap a) x →
      ggMarkedAt heap x ∨ ggReaches heap a x := by
  induction fuel with
  | zero => intro heap a x hx; exact .inl hx
  | succ fuel ih =>
    intro heap a x hx
    cases hfind : heap.find? (fun o => o.addr == a) with
    | none =>
      rw [show gg_gc_mark_object (fuel + 1) heap a = heap by
        simp [gg_gc_mark_object, hfind]] at hx
      exact .inl hx
    | some h =>
      by_cases hm : h.marked
      · rw [show gg_gc_mark_object (fuel + 1) heap a = heap by
          simp [gg_gc_mark_object, hfind, hm]] at hx
        exact .inl hx
      · replace hm : h.marked = false := by simpa using hm
        have hh : h ∈ heap := List.mem_of_find?_eq_some hfind
        have hha : h.addr = a := by
          have := List.find?_some hfind
          simpa using this
        rw [show gg_gc_mark_object (fuel + 1) heap a =
            markWordsWith (fun hp b => gg_gc_mark_object fuel hp b)
              (setMark heap a) (scanWords h) by
          simp [gg_gc_mark_object, hfind, hm]] at hx
        have W : ∀ (ws : List Nat) (hp : List gg_gc_header) (x2 : Nat),
            ggMarkedAt (markWordsWith (fun hp2 b => gg_gc_mark_object fuel hp2 b)
              hp ws) x2 →
            ggMarkedAt hp x2 ∨
              ∃ w ∈ ws, ∃ t, gg_gc_find_header hp w = some t ∧
                ggReaches hp t.addr x2 := by
          intro ws
          induction ws with
          | nil => intro hp x2 hx2; exact .inl hx2
          | cons w tail ihw =>
            intro hp x2 hx2
            by_cases hw : w = 0
            · rw [markWordsWith_cons_skip (fun hp2 b => gg_gc_mark_object fuel hp2 b)
                  hp w tail hw] at hx2
              rcases ihw hp x2 hx2 with h1 | ⟨w', hw', t, hft, hr⟩
              · exact .inl h1
              · exact .inr ⟨w', List.mem_cons_of_mem w hw', t, hft, hr⟩
            · cases hfind2 : gg_gc_find_header hp w with
              | none =>
                rw [markWordsWith_cons_none (fun hp2 b => gg_gc_mark_object fuel hp2 b)
                    hp w tail hw hfind2] at hx2
                rcases ihw hp x2 hx2 with h1 | ⟨w', hw', t, hft, hr⟩
                · exact .inl h1
                · exact .inr ⟨w', List.mem_cons_of_mem w hw', t, hft, hr⟩
              | some t =>
                by_cases hm2 : t.marked
                · rw [markWordsWith_cons_marked
                      (fun hp2 b => gg_gc_mark_object fuel hp2 b)
                      hp w tail t hw hfind2 hm2] at hx2
                  rcases ihw hp x2 hx2 with h1 | ⟨w', hw', t', hft, hr⟩
                  · exact .inl h1
                  · exact .inr ⟨w', List.mem_cons_of_mem w hw', t', hft, hr⟩
                · replace hm2 : t.marked = false := by simpa using hm2
                  rw [markWordsWith_cons_go
                      (fun hp2 b => gg_gc_mark_object fuel hp2 b)
                      hp w tail t hw hfind2 hm2] at hx2
                  rcases ihw (gg_gc_mark_object fuel hp t.addr) x2 hx2 with
                    h1 | ⟨w', hw', t', hft', hr⟩
                  · rcases ih hp t.addr x2 h1 with h2 | h2
                    · exact .inl h2
                    · exact .inr ⟨w, List.mem_cons_self w tail, t, hfind2, h2⟩
                  · obtain ⟨S, hS⟩ := gg_gc_mark_object_shape fuel hp t.addr
                    rw [hS] at hft' hr
                    rw [gg_gc_find_header_markBy] at hft'
                    obtain ⟨t0, ht0, rfl⟩ := Option.map_eq_some'.mp hft'
                    rw [markFn_addr] at hr
                    have hr2 := ggReaches_markBy_of S hp t0.addr x2 hr
                    exact .inr ⟨w', List.mem_cons_of_mem w hw', t0, ht0, hr2⟩
        rcases W (scanWords h) (setMark heap a) x hx with h1 | ⟨w, hww, t, hft, hr⟩
        · rcases ggMarkedAt_setMark_inv heap a x h1 with h2 | h2
          · exact .inl h2
          · exact .inr (h2 ▸ ggReaches.refl)
        · rw [setMark_eq_markBy] at hft hr
          rw [gg_gc_find_header_markBy] at hft
          obtain ⟨t0, ht0, rfl⟩ := Option.map_eq_some'.mp hft
          rw [markFn_addr] at hr
          have hr2 := ggReaches_markBy_of [a] heap t0.addr x hr
          have hedge : ggReaches heap a t0.addr :=
            ggReaches.step a w h t0 ggReaches.refl hh hha hww ht0
          exact .inr (ggReaches_trans heap a t0.addr x hedge hr2)

theorem gg_gc_mark_sound (deref : Nat → Nat) :
    ∀ (roots : List Nat) (heap : List gg_gc_header) (x : Nat),
      ggMarkedAt (gg_gc_mark deref roots heap) x →
      ggMarkedAt heap x ∨ ggReachable deref roots heap x := by
  intro roots
  induction roots with
  | nil => intro heap x hx; exact .inl hx
  | cons r tail ih =>
    intro heap x hx
    by_cases hr : r = 0
    · rw [gg_gc_mark_cons_skip deref r tail heap hr] at hx
      rcases ih heap x hx with h1 | h1
      · exact .inl h1
      · exact .inr (ggReachable_tail deref r tail heap x h1)
    · by_cases hv : deref r = 0
      · rw [gg_gc_mark_cons_null deref r tail heap hr hv] at hx
        rcases ih heap x hx with h1 | h1
        · exact .inl h1
        · exact .inr (ggReachable_tail deref r tail heap x h1)
      · cases hfind : gg_gc_find_header heap (deref r) with
        | none =>
          rw [gg_gc_mark_cons_none deref r tail heap hr hv hfind] at hx
          rcases ih heap x hx with h1 | h1
          · exact .inl h1
          · exact .inr (ggReachable_tail deref r tail heap x h1)
        | some h =>
          rw [gg_gc_mark_cons_go deref r tail heap h hr hv hfind] at hx
          obtain ⟨S, hS⟩ := gg_gc_mark_object_shape heap.length heap h.addr
          rcases ih (gg_gc_mark_object heap.length heap h.addr) x hx with h1 | h1
          · rcases gg_gc_mark_object_sound heap.length heap h.addr x h1 with h2 | h2
            · exact .inl h2
            · refine .inr (ggReachable_step_reaches deref (r :: tail) heap h.addr x
                ?_ h2)
              exact ggReachable.root r h (List.mem_cons_self r tail) hr hfind
          · rw [hS] at h1
            have h2 := ggReachable_markBy_of deref tail S heap x h1
            exact .inr (ggReachable_tail deref r tail heap x h2)

theorem ggClosedBut_drop (hp : List gg_gc_header) (P : List Nat) (w : Nat)
    (tail : List Nat)
    (hdis : ∀ t, gg_gc_find_header hp w = some t → t.marked = true)
    (hcl : ggClosedBut hp (P ++ w :: tail)) : ggClosedBut hp (P ++ tail) := by
  intro o ho hm w' hw' t' hft'
  rcases hcl o ho hm w' hw' t' hft' with h1 | h1
  · exact .inl h1
  · rcases List.mem_append.mp h1 with h2 | h2
    · exact .inr (List.mem_append.mpr (.inl h2))
    · rcases List.mem_cons.mp h2 with h3 | h3
      · subst h3
        exact .inl (hdis t' hft')
      · exact .inr (List.mem_append.mpr (.inr h3))

theorem gg_gc_mark_object_complete (fuel : Nat) :
    ∀ (heap : List gg_gc_header) (a : Nat) (P : List Nat),
      unmarkedCount heap ≤ fuel →
      (heap.map (fun o => o.addr)).Nodup →
      ggClosedBut heap P →
      ggClosedBut (gg_gc_mark_object fuel heap a) P ∧
      (∀ o ∈ heap, o.addr = a → ggMarkedAt (gg_gc_mark_object fuel heap a) a) := by
  induction fuel with
  | zero =>
    intro heap a P hc hnd hcl
    have hall := unmarkedCount_zero_all_marked heap (Nat.le_zero.mp hc)
    exact ⟨hcl, fun o ho hoa => ⟨o, ho, hoa, hall o ho⟩⟩
  | succ fuel ih =>
    intro heap a P hc hnd hcl
    cases hfind : heap.find? (fun o => o.addr == a) with
    | none =>
      have he : gg_gc_mark_object (fuel + 1) heap a = heap := by
        simp [gg_gc_mark_object, hfind]
      rw [he]
      refine ⟨hcl, ?_⟩
      intro o ho hoa
      exfalso
      have := List.find?_eq_none.mp hfind o ho
      simp [hoa] at this
    | some h =>
      have hh : h ∈ heap := List.mem_of_find?_eq_some hfind
      have hha : h.addr = a := by simpa using List.find?_some hfind
      by_cases hm : h.marked
      · have he : gg_gc_mark_object (fuel + 1) heap a = heap := by
          simp [gg_gc_mark_object, hfind, hm]
        rw [he]
        exact ⟨hcl, fun o ho hoa => ⟨h, hh, hha, hm⟩⟩
      · replace hm : h.marked = false := by simpa using hm
        have he : gg_gc_mark_object (fuel + 1) heap a =
            markWordsWith (fun hp b => gg_gc_mark_object fuel hp b)
              (setMark heap a) (scanWords h) := by
          simp [gg_gc_mark_object, hfind, hm]
        rw [he]
        have hc1 : unmarkedCount (setMark heap a) ≤ fuel := by
          have := unmarkedCount_setMark_lt a h hha hm heap hh
          omega
        have hnd1 : ((setMark heap a).map (fun o => o.addr)).Nodup := by
          rw [setMark_eq_markBy, markBy_map_addr]
          exact hnd
        have hcl1 : ggClosedBut (setMark heap a) (P ++ scanWords h) := by
          intro o' ho' hm' w hw t hft
          rw [setMark_eq_markBy] at ho' hft
          obtain ⟨o0, ho0, rfl⟩ := List.mem_map.mp ho'
          rw [gg_gc_find_header_markBy] at hft
          obtain ⟨t0, ht0, rfl⟩ := Option.map_eq_some'.mp hft
          by_cases hs : o0.addr ∈ [a]
          · have ho0a : o0.addr = a := by simpa using hs
            have ho0h : o0 = h :=
              nodup_addr_unique heap hnd o0 h ho0 hh (by rw [ho0a, hha])
            subst ho0h
            rw [markFn_scanWords] at hw
            exact .inr (List.mem_append.mpr (.inr hw))
          · rw [if_neg hs] at hm'
            rw [markFn_scanWords] at hw
            rcases hcl o0 ho0 hm' w hw t0 ht0 with h1 | h1
            · exact .inl (markFn_marked_of [a] t0 h1)
            · exact .inr (List.mem_append.mpr (.inl h1))
        have W : ∀ (ws : List Nat) (hp : List gg_gc_header) (P2 : List Nat),
            unmarkedCount hp ≤ fuel →
            (hp.map (fun o => o.addr)).Nodup →
            ggClosedBut hp (P2 ++ ws) →
            ggClosedBut
              (markWordsWith (fun hp2 b => gg_gc_mark_object fuel hp2 b) hp ws)
              P2 ∧
            (∀ x, ggMarkedAt hp x →
              ggMarkedAt
                (markWordsWith (fun hp2 b => gg_gc_mark_object fuel hp2 b) hp ws)
                x) := by
          intro ws
          induction ws with
          | nil =>
            intro hp P2 hcp hndp hclp
            exact ⟨by simpa using hclp, fun x hx => hx⟩
          | cons w tail ihw =>
            intro hp P2 hcp hndp hclp
            by_cases hw : w = 0
            · rw [markWordsWith_cons_skip (fun hp2 b => gg_gc_mark_object fuel hp2 b)
                  hp w tail hw]
              apply ihw hp P2 hcp hndp
              apply ggClosedBut_drop hp P2 w tail ?_ hclp
              intro t hft
              exfalso
              unfold gg_gc_find_header at hft
              rw [if_pos hw] at hft
              simp at hft
            · cases hfind2 : gg_gc_find_header hp w with
              | none =>
                rw [markWordsWith_cons_none
                    (fun hp2 b => gg_gc_mark_object fuel hp2 b) hp w tail hw hfind2]
                apply ihw hp P2 hcp hndp
                apply ggClosedBut_drop hp P2 w tail ?_ hclp
                intro t hft
                rw [hfind2] at hft
                simp at hft
              | some t =>
                by_cases hm2 : t.marked
                · rw [markWordsWith_cons_marked
                      (fun hp2 b => gg_gc_mark_object fuel hp2 b)
                      hp w tail t hw hfind2 hm2]
                  apply ihw hp P2 hcp hndp
                  apply ggClosedBut_drop hp P2 w tail ?_ hclp
                  intro t' hft'
                  rw [hfind2] at hft'
                  have ht' := Option.some.inj hft'
                  rw [← ht']
                  exact hm2
                · replace hm2 : t.marked = false := by simpa using hm2
                  rw [markWordsWith_cons_go
                      (fun hp2 b => gg_gc_mark_object fuel hp2 b)
                      hp w tail t hw hfind2 hm2]
                  have ht_mem : t ∈ hp := gg_gc_find_header_mem hp w t hfind2
                  obtain ⟨hclA, hmkA⟩ :=
                    ih hp t.addr (P2 ++ w :: tail) hcp hndp hclp
                  have hmk : ggMarkedAt (gg_gc_mark_object fuel hp t.addr) t.addr :=
                    hmkA t ht_mem rfl
                  obtain ⟨S, hS⟩ := gg_gc_mark_object_shape fuel hp t.addr
                  have hcp2 : unmarkedCount (gg_gc_mark_object fuel hp t.addr) ≤ fuel := by
                    rw [hS]
                    calc unmarkedCount (markBy S hp) ≤ unmarkedCount hp :=
                          unmarkedCount_markBy_le S hp
                      _ ≤ fuel := hcp
                  have hndp2 :
                      ((gg_gc_mark_object fuel hp t.addr).map (fun o => o.addr)).Nodup := by
                    rw [hS, markBy_map_addr]
                    exact hndp
                  have hclp2 :
                      ggClosedBut (gg_gc_mark_object fuel hp t.addr) (P2 ++ tail) := by
                    apply ggClosedBut_drop (gg_gc_mark_object fuel hp t.addr)
                      P2 w tail ?_ hclA
                    intro t' hft'
                    rw [hS, gg_gc_find_header_markBy, hfind2] at hft'
                    simp only [Option.map_some'] at hft'
                    have ht' := (Option.some.inj hft').symm
                    have hgt_mem :
                        (if t.addr ∈ S then { t with marked := true } else t) ∈
                          markBy S hp :=
                      List.mem_map_of_mem _ ht_mem
                    rw [hS] at hmk
                    obtain ⟨o', ho', hoa', hm'⟩ := hmk
                    have hnd2 : ((markBy S hp).map (fun o => o.addr)).Nodup := by
                      rw [markBy_map_addr]
                      exact hndp
                    have ho'gt :
                        o' = (if t.addr ∈ S then { t with marked := true } else t) :=
                      nodup_addr_unique (markBy S hp) hnd2 o' _ ho' hgt_mem
                        (by rw [hoa', markFn_addr])
                    rw [ht', ← ho'gt]
                    exact hm'
                  obtain ⟨hclR, hmonoR⟩ :=
                    ihw (gg_gc_mark_object fuel hp t.addr) P2 hcp2 hndp2 hclp2
                  refine ⟨hclR, ?_⟩
                  intro x hx
                  apply hmonoR
                  rw [hS]
                  exact ggMarkedAt_markBy_mono S hp x hx
        obtain ⟨hclW, hmonoW⟩ := W (scanWords h) (setMark heap a) P hc1 hnd1 hcl1
        refine ⟨hclW, ?_⟩
        intro o ho hoa
        apply hmonoW
        have hmem2 : ({ h with marked := true } : gg_gc_header) ∈ setMark heap a := by
          unfold setMark
          have hm2 := List.mem_map_of_mem
            (fun o2 => if o2.addr = a then { o2 with marked := true } else o2) hh
          simpa [hha] using hm2
        exact ⟨{ h with marked := true }, hmem2, hha, rfl⟩

theorem gg_gc_mark_complete (deref : Nat → Nat) :
    ∀ (roots : List Nat) (heap : List gg_gc_header),
      (heap.map (fun o => o.addr)).Nodup →
      ggClosedBut heap [] →
      ggClosedBut (gg_gc_mark deref roots heap) [] ∧
      (∀ x, ggMarkedAt heap x → ggMarkedAt (gg_gc_mark deref roots heap) x) ∧
      (∀ r ∈ roots, ¬r = 0 → ∀ h, gg_gc_find_header heap (deref r) = some h →
        ggMarkedAt (gg_gc_mark deref roots heap) h.addr) := by
  intro roots
  induction roots with
  | nil =>
    intro heap hnd hcl
    refine ⟨hcl, fun x hx => hx, ?_⟩
    intro r hr
    simp at hr
  | cons r tail ih =>
    intro heap hnd hcl
    by_cases hr : r = 0
    · rw [gg_gc_mark_cons_skip deref r tail heap hr]
      obtain ⟨h1, h2, h3⟩ := ih heap hnd hcl
      refine ⟨h1, h2, ?_⟩
      intro r' hr' hr0 h hf
      rcases List.mem_cons.mp hr' with he | he
      · subst he
        exact absurd hr hr0
      · exact h3 r' he hr0 h hf
    · by_cases hv : deref r = 0
      · rw [gg_gc_mark_cons_null deref r tail heap hr hv]
        obtain ⟨h1, h2, h3⟩ := ih heap hnd hcl
        refine ⟨h1, h2, ?_⟩
        intro r' hr' hr0 h hf
        rcases List.mem_cons.mp hr' with he | he
        · subst he
          exfalso
          unfold gg_gc_find_header at hf
          rw [if_pos hv] at hf
          simp at hf
        · exact h3 r' he hr0 h hf
      · cases hfind : gg_gc_find_header heap (deref r) with
        | none =>
          rw [gg_gc_mark_cons_none deref r tail heap hr hv hfind]
          obtain ⟨h1, h2, h3⟩ := ih heap hnd hcl
          refine ⟨h1, h2, ?_⟩
          intro r' hr' hr0 h hf
          rcases List.mem_cons.mp hr' with he | he
          · subst he
            rw [hfind] at hf
            simp at hf
          · exact h3 r' he hr0 h hf
        | some h =>
          rw [gg_gc_mark_cons_go deref r tail heap h hr hv hfind]
          have hcnt : unmarkedCount heap ≤ heap.length := unmarkedCount_le_length heap
          obtain ⟨hclA, hmkA⟩ :=
            gg_gc_mark_object_complete heap.length heap h.addr [] hcnt hnd hcl
          have hmkh : ggMarkedAt (gg_gc_mark_object heap.length heap h.addr) h.addr :=
            hmkA h (gg_gc_find_header_mem heap (deref r) h hfind) rfl
          obtain ⟨S, hS⟩ := gg_gc_mark_object_shape heap.length heap h.addr
          have hnd1 :
              ((gg_gc_mark_object heap.length heap h.addr).map (fun o => o.addr)).Nodup := by
            rw [hS, markBy_map_addr]
            exact hnd
          obtain ⟨h1, h2, h3⟩ := ih (gg_gc_mark_object heap.length heap h.addr) hnd1 hclA
          refine ⟨h1, ?_, ?_⟩
          · intro x hx
            apply h2
            rw [hS]
            exact ggMarkedAt_markBy_mono S heap x hx
          · intro r' hr' hr0 h' hf
            rcases List.mem_cons.mp hr' with he | he
            · subst he
              rw [hfind] at hf
              have hh' := Option.some.inj hf
              rw [← hh']
              exact h2 h.addr hmkh
            · have hf1 : gg_gc_find_header (gg_gc_mark_object heap.length heap h.addr)
                  (deref r') =
                  some (if h'.addr ∈ S then { h' with marked := true } else h') := by
                rw [hS, gg_gc_find_header_markBy, hf]
                rfl
              have hres := h3 r' he hr0 _ hf1
              rw [markFn_addr] at hres
              exact hres

theorem ggReachable_marked (deref : Nat → Nat) (roots : List Nat)
    (heap : List gg_gc_header)
    (hnd : (heap.map (fun o => o.addr)).Nodup)
    (hun : ∀ o ∈ heap, o.marked = false) :
    ∀ x, ggReachable deref roots heap x →
      ggMarkedAt (gg_gc_mark deref roots heap) x := by
  have hcl : ggClosedBut heap [] := by
    intro o ho hm
    rw [hun o ho] at hm
    simp at hm
  obtain ⟨hclosed, hmono, hroots⟩ := gg_gc_mark_complete deref roots heap hnd hcl
  obtain ⟨S, hS⟩ := gg_gc_mark_shape deref roots heap
  have hndF : ((gg_gc_mark deref roots heap).map (fun o => o.addr)).Nodup := by
    rw [hS, markBy_map_addr]
    exact hnd
  intro x hx
  induction hx with
  | root r o hr hr0 hf => exact hroots r hr hr0 o hf
  | step a w o t ha ho hoa hw hf ihx =>
    obtain ⟨o', ho', hoa', hm'⟩ := ihx
    have hgo_mem : (if o.addr ∈ S then { o with marked := true } else o) ∈
        gg_gc_mark deref roots heap := by
      rw [hS]
      exact List.mem_map_of_mem _ ho
    have ho'go : o' = (if o.addr ∈ S then { o with marked := true } else o) :=
      nodup_addr_unique _ hndF o' _ ho' hgo_mem (by rw [hoa', markFn_addr, hoa])
    have hft : gg_gc_find_header (gg_gc_mark deref roots heap) w =
        some (if t.addr ∈ S then { t with marked := true } else t) := by
      rw [hS, gg_gc_find_header_markBy, hf]
      rfl
    have hwm : w ∈ scanWords o' := by
      rw [ho'go, markFn_scanWords]
      exact hw
    rcases hclosed o' ho' hm' w hwm _ hft with h1 | h1
    · exact ⟨_, gg_gc_find_header_mem _ w _ hft, markFn_addr S t, h1⟩
    · simp at h1

theorem sweep_fst_of_marked :
    ∀ (h : List gg_gc_header) (o : gg_gc_header), o ∈ h → o.marked = true →
      ({ o with marked := false } : gg_gc_header) ∈ (gg_gc_sweep h).1 := by
  intro h
  induction h with
  | nil => intro o ho hm; simp at ho
  | cons x rest ih =>
    intro o ho hm
    rw [sweep_cons]
    rcases List.mem_cons.mp ho with he | he
    · subst he
      rw [if_pos hm]
      exact List.mem_cons_self _ _
    · by_cases hx : x.marked
      · rw [if_pos hx]
        exact List.mem_cons_of_mem _ (ih o he hm)
      · rw [if_neg hx]
        exact ih o he hm

theorem sweep_fst_inv :
    ∀ (h : List gg_gc_header) (o' : gg_gc_header), o' ∈ (gg_gc_sweep h).1 →
      ∃ o, o ∈ h ∧ o.marked = true ∧ o' = { o with marked := false } := by
  intro h
  induction h with
  | nil => intro o' ho'; simp [gg_gc_sweep] at ho'
  | cons x rest ih =>
    intro o' ho'
    rw [sweep_cons] at ho'
    by_cases hx : x.marked
    · rw [if_pos hx] at ho'
      rcases List.mem_cons.mp ho' with he | he
      · exact ⟨x, List.mem_cons_self x rest, hx, he⟩
      · obtain ⟨o, ho, hm, heq⟩ := ih o' he
        exact ⟨o, List.mem_cons_of_mem x ho, hm, heq⟩
    · rw [if_neg hx] at ho'
      obtain ⟨o, ho, hm, heq⟩ := ih o' ho'
      exact ⟨o, List.mem_cons_of_mem x ho, hm, heq⟩

theorem sweep_snd_of_unmarked :
    ∀ (h : List gg_gc_header) (o : gg_gc_header), o ∈ h → o.marked = false →
      o ∈ (gg_gc_sweep h).2 := by
  intro h
  induction h with
  | nil => intro o ho hm; simp at ho
  | cons x rest ih =>
    intro o ho hm
    rw [sweep_cons]
    rcases List.mem_cons.mp ho with he | he
    · subst he
      rw [if_neg (by simp [hm])]
      exact List.mem_cons_self _ _
    · by_cases hx : x.marked
      · rw [if_pos hx]
        exact ih o he hm
      · rw [if_neg hx]
        exact List.mem_cons_of_mem _ (ih o he hm)

/-- C1: starting from a heap with distinct header addresses and all mark
bits clear (invariant H3), a `gg_gc_collect()` keeps exactly the objects
whose payloads are transitively reachable from the registered roots under
the conservative resolution rule (`ggReachable`): a reachable object's
address is still on the registry list afterwards, an unreachable object's
address is gone and appears among the addresses released to the host
allocator, and no address appears that was not on the list before. -/
theorem gg_gc_collect_reachability (deref : Nat → Nat) (s : gg_gc_state)
    (hnd : (s.heap.map (fun o => o.addr)).Nodup)
    (hun : ∀ o ∈ s.heap, o.marked = false) :
    (∀ o ∈ s.heap,
      (o.addr ∈ (gg_gc_collect deref s).heap.map (fun o2 => o2.addr) ↔
        ggReachable deref s.roots s.heap o.addr)) ∧
    (∀ o ∈ s.heap, ¬ ggReachable deref s.roots s.heap o.addr →
      o.addr ∈ gg_gc_collectFreed deref s) ∧
    (∀ a ∈ (gg_gc_collect deref s).heap.map (fun o2 => o2.addr),
      a ∈ s.heap.map (fun o2 => o2.addr)) := by
  obtain ⟨S, hS⟩ := gg_gc_mark_shape deref s.roots s.heap
  have hMtoR : ∀ x, ggMarkedAt (gg_gc_mark deref s.roots s.heap) x →
      ggReachable deref s.roots s.heap x := by
    intro x hx
    rcases gg_gc_mark_sound deref s.roots s.heap x hx with h1 | h1
    · obtain ⟨o, ho, hoa, hm⟩ := h1
      rw [hun o ho] at hm
      simp at hm
    · exact h1
  have hRtoM := ggReachable_marked deref s.roots s.heap hnd hun
  have hheap : (gg_gc_collect deref s).heap =
      (gg_gc_sweep (gg_gc_mark deref s.roots s.heap)).1 := rfl
  refine ⟨?_, ?_, ?_⟩
  · intro o ho
    constructor
    · intro hmem
      rw [hheap] at hmem
      obtain ⟨o', ho', hoa'⟩ := List.mem_map.mp hmem
      obtain ⟨o0, ho0, hm0, he0⟩ := sweep_fst_inv _ o' ho'
      apply hMtoR
      refine ⟨o0, ho0, ?_, hm0⟩
      rw [he0] at hoa'
      exact hoa'
    · intro hreach
      obtain ⟨o', ho', hoa', hm'⟩ := hRtoM o.addr hreach
      rw [hheap]
      exact List.mem_map.mpr
        ⟨{ o' with marked := false }, sweep_fst_of_marked _ o' ho' hm', hoa'⟩
  · intro o ho hnr
    have hgo_mem : (if o.addr ∈ S then { o with marked := true } else o) ∈
        gg_gc_mark deref s.roots s.heap := by
      rw [hS]
      exact List.mem_map_of_mem _ ho
    have hgm : ((if o.addr ∈ S then { o with marked := true } else o) :
        gg_gc_header).marked = false := by
      by_contra hb
      replace hb : ((if o.addr ∈ S then { o with marked := true } else o) :
          gg_gc_header).marked = true := by simpa using hb
      exact hnr (hMtoR o.addr ⟨_, hgo_mem, markFn_addr S o, hb⟩)
    have hsw := sweep_snd_of_unmarked _ _ hgo_mem hgm
    unfold gg_gc_collectFreed
    exact List.mem_map.mpr ⟨_, hsw, markFn_addr S o⟩
  · intro a ha
    rw [hheap] at ha
    obtain ⟨o', ho', hoa'⟩ := List.mem_map.mp ha
    obtain ⟨o0, ho0, hm0, he0⟩ := sweep_fst_inv _ o' ho'
    rw [hS] at ho0
    obtain ⟨o1, ho1, rfl⟩ := List.mem_map.mp ho0
    refine List.mem_map.mpr ⟨o1, ho1, ?_⟩
    rw [he0] at hoa'
    rw [← hoa']
    exact (markFn_addr S o1).symm

/-- C1 witness: over the concrete heap with a rooted object at 100 and an
unreachable object at 200, the theorem instantiated with its hypotheses
checked by evaluation. -/
theorem gg_gc_collect_reachability_witness :
    ((ggTwoState.heap.map (fun o => o.addr)).Nodup ∧
      (∀ o ∈ ggTwoState.heap, o.marked = false)) ∧
    ((∀ o ∈ ggTwoState.heap,
      (o.addr ∈ (gg_gc_collect ggTwoDeref ggTwoState).heap.map (fun o2 => o2.addr) ↔
        ggReachable ggTwoDeref ggTwoState.roots ggTwoState.heap o.addr)) ∧
    (∀ o ∈ ggTwoState.heap,
      ¬ ggReachable ggTwoDeref ggTwoState.roots ggTwoState.heap o.addr →
      o.addr ∈ gg_gc_collectFreed ggTwoDeref ggTwoState) ∧
    (∀ a ∈ (gg_gc_collect ggTwoDeref ggTwoState).heap.map (fun o2 => o2.addr),
      a ∈ ggTwoState.heap.map (fun o2 => o2.addr))) :=
  ⟨⟨by decide, by decide⟩,
    gg_gc_collect_reachability ggTwoDeref ggTwoState (by decide) (by decide)⟩
